import Mathlib

/-!
# Verification of the `ReactiveCascadingDropdown` cascade engine

Shallow embedding of the cascading-dropdown state engine
(`src/unnamed/part_000`, class `ReactiveCascadingDropdown`) and proofs of
the specified properties.

Modelling conventions:
* Scalar values (`FieldValue = string | number | null` in the source) are
  `Value` (strings and integers); `null` is `Option.none` at the outer
  layer, so a selection-state value is `FieldValue := Option Value`.
* JavaScript objects used as string-keyed maps (`this.state`, records of
  the dataset) are association lists `List (String × _)`; reading an
  absent key (JS `undefined`) is `Option.none` one level up, and
  assignment (`obj[k] = v`) updates the existing entry or appends a new
  one, preserving JS key-insertion order.
* A record field that is absent (`undefined`) and one that is explicitly
  `null` behave identically in every operation of the engine (both fail
  `=== v` for non-null `v` and both are dropped from option lists), so
  `getItem` collapses the two into `Option.none`.
* `Array.prototype.sort` with no comparator sorts by the string
  representation of the elements; with a comparator it is a stable sort
  (ECMAScript 2019).  Both are modelled by `List.insertionSort`, which is
  stable, with the corresponding total preorder.  String comparison is
  modelled by Lean's lexicographic order on `String` (identical to the
  JS UTF-16 code-unit order for the basic multilingual plane).
* The recursion of `resetDependentFields` is modelled with explicit fuel;
  the source recursion terminates exactly when the dependency relation is
  acyclic, and in that case every call chain visits pairwise-distinct
  declared fields, so its depth is at most the number of declarations and
  `dependencies.length + 1` units of fuel reproduce the source behaviour
  exactly (the fuel-exhausted branch is never taken).
* Observer callbacks (`ChangeListener`) may fail; a failing callback is a
  function returning `Except.error`.  The `try`/`catch` of
  `notifyListeners` turns each failure into a logged message instead of
  propagating it.  Observers in this model do not mutate the engine
  (reentrant mutation from observers is out of scope, as in the spec).
-/

/-- A scalar value of the source's `FieldValue`/record domain:
a string or a number.  Numbers are modelled as integers. -/
inductive Value where
  | str : String → Value
  | num : Int → Value
deriving DecidableEq, Repr

/-- `FieldValue` of the source: a scalar or `null` (`none`). -/
abbrev FieldValue := Option Value

/-- A record of the dataset (`DataItem = Record<string, any>`), as an
association list.  An entry value `none` is an explicit `null`. -/
abbrev DataItem := List (String × FieldValue)

/-- `item[f]` for a record, collapsing absent and `null` into `none`. -/
def getItem (item : DataItem) (f : String) : Option Value :=
  match item.find? (fun p => p.1 == f) with
  | some (_, some v) => some v
  | _ => none

/-- The selection state `FilterMap = Record<string, FieldValue>`. -/
abbrev FilterMap := List (String × FieldValue)

/-- `this.state[k]`: `none` when the key is absent (JS `undefined`),
`some none` when the stored selection is `null`. -/
def getKey (s : FilterMap) (k : String) : Option FieldValue :=
  (s.find? (fun p => p.1 == k)).map (fun p => p.2)

/-- Whether `k` is a key of the map. -/
def isKey (s : FilterMap) (k : String) : Bool :=
  s.any (fun p => p.1 == k)

/-- `this.state[k] = v`: update the entry holding `k` (a JS object has at
most one entry per key), or append a new one (JS property-creation
order). -/
def setKey : FilterMap → String → FieldValue → FilterMap
  | [], k, v => [(k, v)]
  | p :: rest, k, v =>
    if p.1 == k then (k, v) :: rest else p :: setKey rest k v

/-- A dependency declaration (`DependencyConfig`). -/
structure DependencyConfig where
  field : String
  dependsOn : List String
deriving DecidableEq, Repr

/-- The immutable part of the engine: the dataset and the (sorted)
dependency declarations. -/
structure Config where
  data : List DataItem
  dependencies : List DependencyConfig
deriving Repr

/-- Comparator of `sortDependencies`:
`(a, b) => a.dependsOn.length - b.dependsOn.length`. -/
def depLe (a b : DependencyConfig) : Prop :=
  a.dependsOn.length ≤ b.dependsOn.length

instance : DecidableRel depLe := fun a b =>
  inferInstanceAs (Decidable (a.dependsOn.length ≤ b.dependsOn.length))

instance : IsTotal DependencyConfig depLe :=
  ⟨fun a b => Nat.le_total a.dependsOn.length b.dependsOn.length⟩

instance : IsTrans DependencyConfig depLe :=
  ⟨fun _ _ _ h1 h2 => Nat.le_trans h1 h2⟩

/-- `sortDependencies`: stable sort of the declarations by ascending
`dependsOn.length` (JS `Array.prototype.sort` is stable). -/
def sortDependencies (deps : List DependencyConfig) : List DependencyConfig :=
  deps.insertionSort depLe

/-- Construction: store the data, sort the dependency declarations. -/
def mkConfig (data : List DataItem) (deps : List DependencyConfig) : Config :=
  ⟨data, sortDependencies deps⟩

/-- `initializeSelections` starting from an existing state (the
constructor starts from the empty object `{}`, `reset()` reuses the
current one): every declared field is assigned `null`. -/
def initializeSelectionsFrom (c : Config) (s : FilterMap) : FilterMap :=
  c.dependencies.foldl (fun s dep => setKey s dep.field none) s

/-- The selection state right after construction. -/
def initializeSelections (c : Config) : FilterMap :=
  initializeSelectionsFrom c []

/-- String representation used by the JS default sort
(`String(x)` conversion). -/
def valueToString : Value → String
  | .str s => s
  | .num n => toString n

/-- Lexicographic comparison of character sequences by code unit
(the comparison JS string ordering performs). -/
def charListLe : List Char → List Char → Bool
  | [], _ => true
  | _ :: _, [] => false
  | a :: as, b :: bs =>
    if a.toNat < b.toNat then true
    else if b.toNat < a.toNat then false
    else charListLe as bs

/-- Lexicographic string comparison. -/
def strLe (a b : String) : Bool :=
  charListLe a.data b.data

/-- Ordering of the JS default `sort()`: by string representation. -/
def valLe (a b : Value) : Prop :=
  strLe (valueToString a) (valueToString b) = true

instance : DecidableRel valLe := fun a b =>
  inferInstanceAs (Decidable (strLe (valueToString a) (valueToString b) = true))

/-- `[...new Set(xs)]`: deduplication keeping the first occurrence. -/
def dedupFirstAux [DecidableEq α] (seen : List α) : List α → List α
  | [] => []
  | a :: l =>
    if a ∈ seen then dedupFirstAux seen l
    else a :: dedupFirstAux (a :: seen) l

/-- Deduplication keeping first occurrences (JS `Set` iteration order). -/
def dedupFirst [DecidableEq α] (l : List α) : List α :=
  dedupFirstAux [] l

/-- The parent-filter loop of `getOptions`: for each prerequisite whose
current selection is set (neither `null` nor `undefined`), narrow the
working set to the records matching it. -/
def applyParentFilters (s : FilterMap) (parents : List String)
    (data : List DataItem) : List DataItem :=
  parents.foldl
    (fun fd parentField =>
      match getKey s parentField with
      | some (some pv) => fd.filter (fun item => getItem item parentField == some pv)
      | _ => fd)
    data

/-- `getOptions(field)`: `[]` for an undeclared field; otherwise the
values of `field` over the narrowed dataset, deduplicated (`Set`), with
`null`/absent dropped, sorted by the JS default (string) order. -/
def getOptions (c : Config) (s : FilterMap) (field : String) : List Value :=
  match c.dependencies.find? (fun d => d.field == field) with
  | none => []
  | some dep =>
    let fd := applyParentFilters s dep.dependsOn c.data
    ((dedupFirst (fd.map (fun item => getItem item field))).filterMap id).insertionSort valLe

/-- `getAllOptions()`: options of every declared field, keyed in
declaration (post-sort) order. -/
def getAllOptions (c : Config) (s : FilterMap) : List (String × List Value) :=
  c.dependencies.map (fun dep => (dep.field, getOptions c s dep.field))

/-- `getFilteredData()`: the records matching every set selection. -/
def getFilteredData (c : Config) (s : FilterMap) : List DataItem :=
  c.data.filter (fun item =>
    s.all (fun p =>
      match p.2 with
      | none => true
      | some v => getItem item p.1 == some v))

/-- The derived view (`DropdownState`). -/
structure DropdownState where
  currentSelections : FilterMap
  availableOptions : List (String × List Value)
  filteredData : List DataItem
deriving DecidableEq, Repr

/-- `getCurrentState()`: snapshot of the selections plus the derived
options and filtered data. -/
def getCurrentState (c : Config) (s : FilterMap) : DropdownState :=
  ⟨s, getAllOptions c s, getFilteredData c s⟩

/-- One change notification `(field, value, updatedState)` as delivered
to the listeners. -/
structure Notification where
  field : String
  value : FieldValue
  state : DropdownState
deriving DecidableEq, Repr

/-- The `forEach` body of `resetDependentFields`, iterating over the
direct dependents of the changed field: remember the old value, write
`null`, recurse (through the supplied callee `r`), and, when the old
value was not already `null`, emit one notification carrying the state
recomputed after the recursion. -/
def resetLoop (c : Config) (r : FilterMap → String → FilterMap × List Notification) :
    FilterMap → List DependencyConfig → FilterMap × List Notification
  | s, [] => (s, [])
  | s, dep :: rest =>
    let old := getKey s dep.field
    let s1 := setKey s dep.field none
    let rec1 := r s1 dep.field
    let ns2 : List Notification :=
      if old == some none then []
      else [⟨dep.field, none, getCurrentState c rec1.1⟩]
    let tail := resetLoop c r rec1.1 rest
    (tail.1, rec1.2 ++ ns2 ++ tail.2)

/-- `resetDependentFields(changedField)`, with fuel for the recursion
(see the header: `dependencies.length + 1` fuel reproduces the source
exactly whenever the declarations are acyclic, which is also the only
case in which the source recursion terminates). -/
def resetDependentFields (c : Config) : Nat → FilterMap → String → FilterMap × List Notification
  | 0, s, _ => (s, [])
  | fuel + 1, s, changedField =>
    resetLoop c (resetDependentFields c fuel) s
      (c.dependencies.filter (fun d => d.dependsOn.contains changedField))

/-- `select(field, value)`: set the field, cascade the resets, and append
the final notification for the changed field itself.  Returns the new
selection state and the full notification sequence. -/
def select (c : Config) (s : FilterMap) (field : String) (value : FieldValue) :
    FilterMap × List Notification :=
  let s1 := setKey s field value
  let r := resetDependentFields c (c.dependencies.length + 1) s1 field
  (r.1, r.2 ++ [⟨field, value, getCurrentState c r.1⟩])

/-- `getSelectionSequence()`: the declared fields in post-sort order. -/
def getSelectionSequence (c : Config) : List String :=
  c.dependencies.map (fun dep => dep.field)

/-- `canSelect(field)`: declared and all prerequisites set. -/
def canSelect (c : Config) (s : FilterMap) (field : String) : Bool :=
  match c.dependencies.find? (fun d => d.field == field) with
  | none => false
  | some dep =>
    dep.dependsOn.all (fun parentField =>
      match getKey s parentField with
      | some (some _) => true
      | _ => false)

/-- `reset()`: set every declared field to `null`, emit one notification
with the sentinel field name `"reset"`. -/
def resetAll (c : Config) (s : FilterMap) : FilterMap × List Notification :=
  let s1 := initializeSelectionsFrom c s
  (s1, [⟨"reset", none, getCurrentState c s1⟩])

/-- An observer callback: receives the notification, may fail
(JS `throw` is `Except.error`). -/
abbrev Listener := Notification → Except String Unit

/-- The `forEach`/`try`/`catch` loop of `notifyListeners`: every listener
is invoked; a failure is caught and becomes a logged message
(`console.error`), and the loop continues with the remaining listeners. -/
def notifyListeners (ls : List Listener) (n : Notification) : List (Option String)
  := match ls with
  | [] => []
  | l :: rest =>
    (match l n with
     | .ok _ => none
     | .error e => some e) :: notifyListeners rest n

/-- `select` observed through registered listeners: the engine state is
produced by the pure `select`, and each emitted notification is delivered
to every listener in order. -/
def selectWithListeners (c : Config) (s : FilterMap) (ls : List Listener)
    (field : String) (value : FieldValue) :
    FilterMap × List (List (Option String)) :=
  let r := select c s field value
  (r.1, r.2.map (fun n => notifyListeners ls n))

/-- The direct-dependence relation declared by the configuration list:
`stepsTo deps u v` iff some declaration gives `v` and lists `u` among its
prerequisites (so the cascade of `u` resets `v`). -/
def stepsTo (deps : List DependencyConfig) (u v : String) : Prop :=
  ∃ dep ∈ deps, dep.field = v ∧ u ∈ dep.dependsOn

/-- `v` transitively depends on `u`. -/
abbrev DependsOnTrans (deps : List DependencyConfig) (u v : String) : Prop :=
  Relation.TransGen (stepsTo deps) u v

/-- Acyclicity of the declared dependency relation: no field transitively
depends on itself. -/
def AcyclicDeps (deps : List DependencyConfig) : Prop :=
  ∀ f, ¬ DependsOnTrans deps f f

/-- Whether the selection of `f` is set (neither `null` nor absent). -/
def isSet (s : FilterMap) (f : String) : Bool :=
  match getKey s f with
  | some (some _) => true
  | _ => false

/-! ## Fixtures (the sample data and dependency chain of the source) -/

/-- The `sampleProducts` fixture. -/
def sampleData : List DataItem := [
  [("id", some (.str "1")), ("name", some (.str "iPhone 14")),
   ("category", some (.str "Electronics")), ("subcategory", some (.str "Smartphones")),
   ("brand", some (.str "Apple"))],
  [("id", some (.str "2")), ("name", some (.str "Galaxy S23")),
   ("category", some (.str "Electronics")), ("subcategory", some (.str "Smartphones")),
   ("brand", some (.str "Samsung"))],
  [("id", some (.str "3")), ("name", some (.str "MacBook Pro")),
   ("category", some (.str "Electronics")), ("subcategory", some (.str "Laptops")),
   ("brand", some (.str "Apple"))],
  [("id", some (.str "4")), ("name", some (.str "Running Shoes")),
   ("category", some (.str "Sports")), ("subcategory", some (.str "Footwear")),
   ("brand", some (.str "Nike"))],
  [("id", some (.str "5")), ("name", some (.str "T-Shirt")),
   ("category", some (.str "Clothing")), ("subcategory", some (.str "Casual")),
   ("brand", some (.str "H&M"))]]

/-- The `productDependencies` fixture:
`category → subcategory → brand → name`. -/
def productDependencies : List DependencyConfig := [
  ⟨"category", []⟩,
  ⟨"subcategory", ["category"]⟩,
  ⟨"brand", ["category", "subcategory"]⟩,
  ⟨"name", ["category", "subcategory", "brand"]⟩]

/-- The engine built on the fixtures. -/
def prodConfig : Config := mkConfig sampleData productDependencies

/-- The fixture state after construction. -/
def prodInit : FilterMap := initializeSelections prodConfig

/-- Fixture state after `select("category", "Electronics")`. -/
def prodAfterCategory : FilterMap :=
  (select prodConfig prodInit "category" (some (.str "Electronics"))).1

/-- Fixture state after a further `select("subcategory", "Laptops")`. -/
def prodAfterSubcategory : FilterMap :=
  (select prodConfig prodAfterCategory "subcategory" (some (.str "Laptops"))).1

/-- A rank function witnessing that the fixture dependency chain is
acyclic (each declaration only depends on strictly lower-ranked
fields). -/
def prodRank (f : String) : Nat :=
  if f == "category" then 0
  else if f == "subcategory" then 1
  else if f == "brand" then 2
  else 3

/-- A one-field, numeric-valued engine exposing the JS default-sort
behaviour on numbers. -/
def numConfig : Config :=
  mkConfig [[("n", some (.num 2))], [("n", some (.num 10))]] [⟨"n", []⟩]

/-- A three-field chain `cat → sub → nm` whose cascade can widen the
option set of `nm` when `cat` is selected (used against the
select-based monotonicity claim). -/
def chainConfig : Config := mkConfig
  [[("cat", some (.str "A")), ("sub", some (.str "X")), ("nm", some (.str "n1"))],
   [("cat", some (.str "B")), ("sub", some (.str "Y")), ("nm", some (.str "n2"))],
   [("cat", some (.str "B")), ("sub", some (.str "Z")), ("nm", some (.str "n3"))]]
  [⟨"cat", []⟩, ⟨"sub", ["cat"]⟩, ⟨"nm", ["cat", "sub"]⟩]

/-- A rank function witnessing acyclicity of `chainConfig`. -/
def chainRank (f : String) : Nat :=
  if f == "cat" then 0
  else if f == "sub" then 1
  else 2

/-- `chainConfig` after the out-of-order `select("sub", "X")`. -/
def chainAfterSub : FilterMap :=
  (select chainConfig (initializeSelections chainConfig) "sub" (some (.str "X"))).1

/-! ## Basic association-map lemmas -/

theorem getKey_nil (k : String) : getKey [] k = none := rfl

theorem getKey_cons (p : String × FieldValue) (s : FilterMap) (k : String) :
    getKey (p :: s) k = if p.1 == k then some p.2 else getKey s k := by
  unfold getKey
  rw [List.find?]
  cases h : (p.1 == k) <;> simp [h]

theorem getKey_setKey_self (s : FilterMap) (k : String) (v : FieldValue) :
    getKey (setKey s k v) k = some v := by
  induction s with
  | nil => simp [setKey, getKey_cons]
  | cons p rest ih =>
    rw [setKey]
    by_cases h : (p.1 == k) = true
    · simp [h, getKey_cons]
    · simp [h, getKey_cons, ih]

theorem getKey_setKey_ne (s : FilterMap) (k k' : String) (v : FieldValue)
    (h : k' ≠ k) : getKey (setKey s k v) k' = getKey s k' := by
  have hkk : (k == k') = false := by simp [Ne.symm h]
  induction s with
  | nil => simp [setKey, getKey_cons, getKey_nil, hkk]
  | cons p rest ih =>
    rw [setKey]
    by_cases hp : (p.1 == k) = true
    · have hp' : p.1 = k := by simpa using hp
      simp [getKey_cons, hkk, hp', hp]
    · simp [hp, getKey_cons, ih]

theorem isKey_cons (p : String × FieldValue) (s : FilterMap) (k : String) :
    isKey (p :: s) k = (p.1 == k || isKey s k) := by
  simp [isKey]

theorem isKey_setKey (s : FilterMap) (k k' : String) (v : FieldValue) :
    isKey (setKey s k v) k' = true ↔ (k = k' ∨ isKey s k' = true) := by
  induction s with
  | nil => simp [setKey, isKey]
  | cons p rest ih =>
    rw [setKey]
    by_cases hp : (p.1 == k) = true
    · rw [if_pos hp, isKey_cons, isKey_cons]
      have hp' : p.1 = k := by simpa using hp
      rw [hp']
      simp only [Bool.or_eq_true, beq_iff_eq]
      tauto
    · rw [if_neg hp, isKey_cons, isKey_cons]
      simp only [Bool.or_eq_true, beq_iff_eq]
      rw [ih]
      tauto

theorem keys_setKey_of_isKey (s : FilterMap) (k : String) (v : FieldValue)
    (h : isKey s k = true) :
    (setKey s k v).map Prod.fst = s.map Prod.fst := by
  induction s with
  | nil => simp [isKey] at h
  | cons p rest ih =>
    rw [setKey]
    by_cases hp : (p.1 == k) = true
    · have hp' : p.1 = k := by simpa using hp
      simp [hp, hp']
    · rw [isKey_cons] at h
      simp only [hp, Bool.false_or] at h
      simp [hp, ih h]

theorem getKey_eq_none_of_not_isKey (s : FilterMap) (k : String)
    (h : isKey s k = false) : getKey s k = none := by
  induction s with
  | nil => rfl
  | cons p rest ih =>
    rw [isKey_cons] at h
    rcases Bool.or_eq_false_iff.mp h with ⟨h1, h2⟩
    rw [getKey_cons]
    simp [h1, ih h2]

theorem isKey_of_getKey_some (s : FilterMap) (k : String) (val : FieldValue)
    (h : getKey s k = some val) : isKey s k = true := by
  by_contra hc
  rw [getKey_eq_none_of_not_isKey s k (by simpa using hc)] at h
  exact Option.noConfusion h

theorem mem_of_getKey_some (s : FilterMap) (k : String) (val : FieldValue)
    (h : getKey s k = some val) : (k, val) ∈ s := by
  induction s with
  | nil => simp [getKey_nil] at h
  | cons p rest ih =>
    rw [getKey_cons] at h
    by_cases hp : (p.1 == k) = true
    · have hp' : p.1 = k := by simpa using hp
      simp only [hp, if_pos] at h
      have : p = (k, val) := by
        cases p
        simp_all
      simp [this]
    · simp only [hp, if_neg, Bool.false_eq_true, not_false_eq_true] at h
      exact List.mem_cons_of_mem _ (ih h)

theorem getKey_of_mem_of_nodupKeys (s : FilterMap) (k : String) (val : FieldValue)
    (hnd : (s.map Prod.fst).Nodup) (h : (k, val) ∈ s) : getKey s k = some val := by
  induction s with
  | nil => simp at h
  | cons p rest ih =>
    rw [List.map_cons, List.nodup_cons] at hnd
    rw [getKey_cons]
    rcases List.mem_cons.mp h with h1 | h1
    · simp [← h1]
    · have hk : p.1 ≠ k := by
        intro he
        exact hnd.1 (he ▸ (List.mem_map.mpr ⟨(k, val), h1, rfl⟩))
      simp [hk, ih hnd.2 h1]

/-! ## Narrowing and option-pipeline lemmas -/

theorem applyParentFilters_nil (s : FilterMap) (data : List DataItem) :
    applyParentFilters s [] data = data := rfl

theorem applyParentFilters_cons (s : FilterMap) (p : String) (ps : List String)
    (data : List DataItem) :
    applyParentFilters s (p :: ps) data =
      applyParentFilters s ps
        (match getKey s p with
         | some (some pv) => data.filter (fun item => getItem item p == some pv)
         | _ => data) := by
  unfold applyParentFilters
  rw [List.foldl_cons]

theorem applyParentFilters_eq_filter (s : FilterMap) (parents : List String)
    (data : List DataItem) :
    applyParentFilters s parents data =
      data.filter (fun item =>
        parents.all (fun p =>
          match getKey s p with
          | some (some pv) => getItem item p == some pv
          | _ => true)) := by
  induction parents generalizing data with
  | nil =>
    simp [applyParentFilters_nil]
  | cons p ps ih =>
    rw [applyParentFilters_cons]
    cases hk : getKey s p with
    | none =>
      rw [ih]
      apply List.filter_congr
      intro item _
      simp [hk]
    | some pv =>
      cases pv with
      | none =>
        rw [ih]
        apply List.filter_congr
        intro item _
        simp [hk]
      | some v =>
        rw [ih, List.filter_filter]
        apply List.filter_congr
        intro item _
        simp [hk, Bool.and_comm]

theorem applyParentFilters_sublist_self (s : FilterMap) (parents : List String)
    (data : List DataItem) :
    List.Sublist (applyParentFilters s parents data) data := by
  rw [applyParentFilters_eq_filter]
  exact List.filter_sublist data

theorem mem_dedupFirstAux [DecidableEq α] (seen l : List α) (a : α) :
    a ∈ dedupFirstAux seen l ↔ a ∈ l ∧ a ∉ seen := by
  induction l generalizing seen with
  | nil => simp [dedupFirstAux]
  | cons b l ih =>
    rw [dedupFirstAux]
    by_cases hb : b ∈ seen
    · rw [if_pos hb, ih]
      constructor
      · rintro ⟨h1, h2⟩
        exact ⟨List.mem_cons_of_mem _ h1, h2⟩
      · rintro ⟨h1, h2⟩
        rcases List.mem_cons.mp h1 with rfl | h1
        · exact absurd hb h2
        · exact ⟨h1, h2⟩
    · rw [if_neg hb]
      rw [List.mem_cons, ih]
      constructor
      · rintro (rfl | ⟨h1, h2⟩)
        · exact ⟨List.mem_cons_self _ _, hb⟩
        · constructor
          · exact List.mem_cons_of_mem _ h1
          · intro hc
            exact h2 (List.mem_cons_of_mem _ hc)
      · rintro ⟨h1, h2⟩
        rcases List.mem_cons.mp h1 with rfl | h1
        · exact Or.inl rfl
        · by_cases hab : a = b
          · exact Or.inl hab
          · refine Or.inr ⟨h1, ?_⟩
            intro hc
            rcases List.mem_cons.mp hc with rfl | hc
            · exact hab rfl
            · exact h2 hc

theorem nodup_dedupFirstAux [DecidableEq α] (seen l : List α) :
    (dedupFirstAux seen l).Nodup := by
  induction l generalizing seen with
  | nil => simp [dedupFirstAux]
  | cons b l ih =>
    rw [dedupFirstAux]
    by_cases hb : b ∈ seen
    · rw [if_pos hb]
      exact ih seen
    · rw [if_neg hb, List.nodup_cons]
      constructor
      · intro hc
        exact ((mem_dedupFirstAux _ _ _).mp hc).2 (List.mem_cons_self _ _)
      · exact ih _

theorem mem_dedupFirst [DecidableEq α] (l : List α) (a : α) :
    a ∈ dedupFirst l ↔ a ∈ l := by
  simp [dedupFirst, mem_dedupFirstAux]

theorem nodup_dedupFirst [DecidableEq α] (l : List α) :
    (dedupFirst l).Nodup := nodup_dedupFirstAux [] l

theorem mem_filterMap_id (l : List (Option Value)) (a : Value) :
    a ∈ l.filterMap id ↔ some a ∈ l := by
  simp [List.mem_filterMap]

theorem nodup_filterMap_id (l : List (Option Value)) (h : l.Nodup) :
    (l.filterMap id).Nodup := by
  apply h.filterMap
  intro a a' b h1 h2
  simp only [id, Option.mem_def] at h1 h2
  rw [h1, h2]

/-- The number of distinct non-null values of a list of read-outs. -/
theorem length_dedup_filterMap (l : List (Option Value)) :
    ((dedupFirst l).filterMap id).length = (l.filterMap id).toFinset.card := by
  have nd : ((dedupFirst l).filterMap id).Nodup :=
    nodup_filterMap_id _ (nodup_dedupFirst l)
  have hset : ((dedupFirst l).filterMap id).toFinset = (l.filterMap id).toFinset := by
    apply Finset.ext
    intro a
    simp [List.mem_toFinset, mem_filterMap_id, mem_dedupFirst]
  rw [← List.toFinset_card_of_nodup nd, hset]

theorem length_dedup_filterMap_mono (l1 l2 : List (Option Value))
    (h : List.Sublist l1 l2) :
    ((dedupFirst l1).filterMap id).length ≤ ((dedupFirst l2).filterMap id).length := by
  rw [length_dedup_filterMap, length_dedup_filterMap]
  apply Finset.card_le_card
  intro a ha
  rw [List.mem_toFinset] at ha ⊢
  rw [mem_filterMap_id] at ha ⊢
  exact h.subset ha

/-- Narrowing is monotone in the selections: filtering with a state that
agrees with `s` wherever `s` is set, over a sub-dataset, yields a
sub-sequence of the original narrowing. -/
theorem applyParentFilters_sublist (s s' : FilterMap) (parents : List String)
    (hcond : ∀ p ∈ parents, getKey s' p = getKey s p ∨ isSet s p = false)
    (data data' : List DataItem) (hdata : List.Sublist data' data) :
    List.Sublist (applyParentFilters s' parents data') (applyParentFilters s parents data) := by
  induction parents generalizing data data' with
  | nil =>
    rw [applyParentFilters_nil, applyParentFilters_nil]
    exact hdata
  | cons p ps ih =>
    rw [applyParentFilters_cons, applyParentFilters_cons]
    have hcond' : ∀ q ∈ ps, getKey s' q = getKey s q ∨ isSet s q = false := by
      intro q hq
      exact hcond q (List.mem_cons_of_mem _ hq)
    rcases hcond p (List.mem_cons_self _ _) with heq | hset
    · rw [heq]
      cases hk : getKey s p with
      | none => exact ih hcond' data data' hdata
      | some pv =>
        cases pv with
        | none => exact ih hcond' data data' hdata
        | some v => exact ih hcond' _ _ (List.Sublist.filter _ hdata)
    · have hmatch : (match getKey s p with
          | some (some pv) => data.filter (fun item => getItem item p == some pv)
          | _ => data) = data := by
        unfold isSet at hset
        cases hk : getKey s p with
        | none => rfl
        | some pv =>
          cases pv with
          | none => rfl
          | some v => rw [hk] at hset; simp at hset
      rw [hmatch]
      have hd' : List.Sublist
          (match getKey s' p with
           | some (some pv) => data'.filter (fun item => getItem item p == some pv)
           | _ => data') data' := by
        cases getKey s' p with
        | none => exact List.Sublist.refl _
        | some pv =>
          cases pv with
          | none => exact List.Sublist.refl _
          | some v => exact List.filter_sublist _
      exact ih hcond' data _ (hd'.trans hdata)

/-- Core monotonicity of `getOptions`: a state agreeing with `s`
wherever `s` is set can only shrink the option list. -/
theorem getOptions_length_mono (c : Config) (s s' : FilterMap) (F : String)
    (hcond : ∀ p, getKey s' p = getKey s p ∨ isSet s p = false) :
    (getOptions c s' F).length ≤ (getOptions c s F).length := by
  unfold getOptions
  cases c.dependencies.find? (fun d => d.field == F) with
  | none => exact Nat.le_refl 0
  | some dep =>
    simp only [List.length_insertionSort]
    apply length_dedup_filterMap_mono
    apply List.Sublist.map
    exact applyParentFilters_sublist s s' dep.dependsOn
      (fun p _ => hcond p) c.data c.data (List.Sublist.refl _)

/-! ## Cascade lemmas -/

theorem resetLoop_nil (c : Config) (r : FilterMap → String → FilterMap × List Notification)
    (s : FilterMap) : resetLoop c r s [] = (s, []) := rfl

theorem resetLoop_cons (c : Config) (r : FilterMap → String → FilterMap × List Notification)
    (s : FilterMap) (dep : DependencyConfig) (rest : List DependencyConfig) :
    resetLoop c r s (dep :: rest) =
      ((resetLoop c r ((r (setKey s dep.field none) dep.field).1) rest).1,
       (r (setKey s dep.field none) dep.field).2 ++
         (if getKey s dep.field == some none then []
          else [⟨dep.field, none,
                 getCurrentState c ((r (setKey s dep.field none) dep.field).1)⟩]) ++
         (resetLoop c r ((r (setKey s dep.field none) dep.field).1) rest).2) := rfl

theorem resetDependentFields_zero (c : Config) (s : FilterMap) (cf : String) :
    resetDependentFields c 0 s cf = (s, []) := rfl

theorem resetDependentFields_succ (c : Config) (fuel : Nat) (s : FilterMap) (cf : String) :
    resetDependentFields c (fuel + 1) s cf =
      resetLoop c (resetDependentFields c fuel) s
        (c.dependencies.filter (fun d => d.dependsOn.contains cf)) := rfl

/-- Every value the loop writes is `null`; any key either keeps its value
or ends up `null`. -/
theorem resetLoop_getKey (c : Config)
    (r : FilterMap → String → FilterMap × List Notification)
    (hr : ∀ s cf g, getKey ((r s cf).1) g = getKey s g ∨ getKey ((r s cf).1) g = some none)
    (depList : List DependencyConfig) (s : FilterMap) (g : String) :
    getKey ((resetLoop c r s depList).1) g = getKey s g ∨
      getKey ((resetLoop c r s depList).1) g = some none := by
  induction depList generalizing s with
  | nil => exact Or.inl rfl
  | cons dep rest ih =>
    rw [resetLoop_cons]
    have h1 : getKey (setKey s dep.field none) g = getKey s g ∨
        getKey (setKey s dep.field none) g = some none := by
      by_cases hg : g = dep.field
      · subst hg
        exact Or.inr (getKey_setKey_self _ _ _)
      · exact Or.inl (getKey_setKey_ne _ _ _ _ hg)
    rcases ih ((r (setKey s dep.field none) dep.field).1) with h3 | h3
    · rw [h3]
      rcases hr (setKey s dep.field none) dep.field g with h2 | h2
      · rw [h2]
        exact h1
      · exact Or.inr h2
    · exact Or.inr h3

/-- Any key either keeps its value across the cascade or ends up
`null`. -/
theorem reset_getKey (c : Config) (fuel : Nat) (s : FilterMap) (cf : String) (g : String) :
    getKey ((resetDependentFields c fuel s cf).1) g = getKey s g ∨
      getKey ((resetDependentFields c fuel s cf).1) g = some none := by
  induction fuel generalizing s cf g with
  | zero => exact Or.inl rfl
  | succ fuel ih =>
    rw [resetDependentFields_succ]
    exact resetLoop_getKey c _ (fun s cf g => ih s cf g) _ s g

/-- A `null` selection survives the cascade. -/
theorem reset_null_mono (c : Config) (fuel : Nat) (s : FilterMap) (cf : String) (g : String)
    (h : getKey s g = some none) :
    getKey ((resetDependentFields c fuel s cf).1) g = some none := by
  rcases reset_getKey c fuel s cf g with h1 | h1
  · rw [h1, h]
  · exact h1

/-- A `null` selection survives the loop. -/
theorem resetLoop_null_mono (c : Config) (fuel : Nat)
    (depList : List DependencyConfig) (s : FilterMap) (g : String)
    (h : getKey s g = some none) :
    getKey ((resetLoop c (resetDependentFields c fuel) s depList).1) g = some none := by
  rcases resetLoop_getKey c _ (fun s cf g => reset_getKey c fuel s cf g) depList s g with h1 | h1
  · rw [h1, h]
  · exact h1

/-- The one-iteration state step: a key that is not `null` after the
head iteration kept its pre-iteration value and is not the head's
field. -/
theorem resetStep_pres (c : Config) (fuel : Nat) (s : FilterMap)
    (dep : DependencyConfig) (g : String)
    (h : getKey ((resetDependentFields c fuel (setKey s dep.field none) dep.field).1) g ≠
      some none) :
    g ≠ dep.field ∧
      getKey ((resetDependentFields c fuel (setKey s dep.field none) dep.field).1) g =
        getKey s g := by
  have hg : g ≠ dep.field := by
    intro he
    subst he
    exact h (reset_null_mono c fuel _ _ _ (getKey_setKey_self _ _ _))
  refine ⟨hg, ?_⟩
  rcases reset_getKey c fuel (setKey s dep.field none) dep.field g with h1 | h1
  · rw [h1, getKey_setKey_ne _ _ _ _ hg]
  · exact absurd h1 h

/-- The cascade from `cf` does not touch fields that do not transitively
depend on `cf`. -/
theorem reset_getKey_of_not_dep (c : Config) (fuel : Nat) :
    ∀ (s : FilterMap) (cf g : String),
      ¬ DependsOnTrans c.dependencies cf g →
      getKey ((resetDependentFields c fuel s cf).1) g = getKey s g := by
  induction fuel with
  | zero => intro s cf g _; rfl
  | succ fuel ih =>
    intro s cf g hng
    rw [resetDependentFields_succ]
    have hdl : ∀ dep ∈ c.dependencies.filter (fun d => d.dependsOn.contains cf),
        stepsTo c.dependencies cf dep.field := by
      intro dep hdep
      rw [List.mem_filter] at hdep
      exact ⟨dep, hdep.1, rfl, by simpa using hdep.2⟩
    revert s
    generalize hL : c.dependencies.filter (fun d => d.dependsOn.contains cf) = depList
    rw [hL] at hdl
    clear hL
    induction depList with
    | nil => intro s; rfl
    | cons dep rest ihl =>
      intro s
      rw [resetLoop_cons]
      have hstep : stepsTo c.dependencies cf dep.field :=
        hdl dep (List.mem_cons_self _ _)
      have hgne : g ≠ dep.field := by
        intro he
        exact hng (he ▸ Relation.TransGen.single hstep)
      have hnd2 : ¬ DependsOnTrans c.dependencies dep.field g := by
        intro hd
        exact hng (Relation.TransGen.head hstep hd)
      have h1 : getKey ((resetDependentFields c fuel (setKey s dep.field none) dep.field).1) g
          = getKey s g := by
        rw [ih _ _ _ hnd2, getKey_setKey_ne _ _ _ _ hgne]
      rw [ihl (fun d hd => hdl d (List.mem_cons_of_mem _ hd)), h1]

theorem isKey_iff_mem_keys (s : FilterMap) (f : String) :
    isKey s f = true ↔ f ∈ s.map Prod.fst := by
  unfold isKey
  rw [List.any_eq_true]
  constructor
  · rintro ⟨p, hp, hpf⟩
    exact List.mem_map.mpr ⟨p, hp, by simpa using hpf⟩
  · intro hf
    rcases List.mem_map.mp hf with ⟨p, hp, hpf⟩
    exact ⟨p, hp, by simp [hpf]⟩

theorem isKey_congr (s s' : FilterMap) (h : s'.map Prod.fst = s.map Prod.fst)
    (f : String) : isKey s' f = isKey s f := by
  cases hb : isKey s f
  · by_contra hc
    have h1 : isKey s' f = true := by
      cases hx : isKey s' f
      · exact absurd hx hc
      · rfl
    have h2 := (isKey_iff_mem_keys s' f).mp h1
    rw [h] at h2
    rw [(isKey_iff_mem_keys s f).mpr h2] at hb
    exact Bool.noConfusion hb
  · exact (isKey_iff_mem_keys s' f).mpr (h ▸ (isKey_iff_mem_keys s f).mp hb)

/-- The cascade never adds or removes state entries as long as every
declared field already has one. -/
theorem reset_keys (c : Config) (fuel : Nat) :
    ∀ (s : FilterMap) (cf : String),
      (∀ dep ∈ c.dependencies, isKey s dep.field = true) →
      ((resetDependentFields c fuel s cf).1).map Prod.fst = s.map Prod.fst := by
  induction fuel with
  | zero => intro s cf _; rfl
  | succ fuel ih =>
    intro s cf hinv
    rw [resetDependentFields_succ]
    have hdl : ∀ dep ∈ c.dependencies.filter (fun d => d.dependsOn.contains cf),
        dep ∈ c.dependencies := by
      intro dep hdep
      exact (List.mem_filter.mp hdep).1
    revert s
    generalize c.dependencies.filter (fun d => d.dependsOn.contains cf) = depList at hdl
    induction depList with
    | nil => intro s _; rfl
    | cons dep rest ihl =>
      intro s hinv
      rw [resetLoop_cons]
      have hk : isKey s dep.field = true := hinv dep (hdl dep (List.mem_cons_self _ _))
      have h1 : (setKey s dep.field none).map Prod.fst = s.map Prod.fst :=
        keys_setKey_of_isKey s dep.field none hk
      have hinv1 : ∀ d ∈ c.dependencies, isKey (setKey s dep.field none) d.field = true := by
        intro d hd
        rw [isKey_congr s _ h1]
        exact hinv d hd
      have h2 : ((resetDependentFields c fuel (setKey s dep.field none) dep.field).1).map
          Prod.fst = s.map Prod.fst := by
        rw [ih _ _ hinv1, h1]
      have hinv2 : ∀ d ∈ c.dependencies,
          isKey ((resetDependentFields c fuel (setKey s dep.field none) dep.field).1) d.field
            = true := by
        intro d hd
        rw [isKey_congr s _ h2]
        exact hinv d hd
      rw [ihl (fun d hd => hdl d (List.mem_cons_of_mem _ hd)) _ hinv2, h2]

/-- Every cascade notification carries value `null`. -/
theorem reset_notif_value (c : Config) (fuel : Nat) :
    ∀ (s : FilterMap) (cf : String),
      ∀ n ∈ (resetDependentFields c fuel s cf).2, n.value = none := by
  induction fuel with
  | zero => intro s cf n hn; simp [resetDependentFields_zero] at hn
  | succ fuel ih =>
    intro s cf
    rw [resetDependentFields_succ]
    generalize c.dependencies.filter (fun d => d.dependsOn.contains cf) = depList
    induction depList generalizing s with
    | nil => intro n hn; simp [resetLoop_nil] at hn
    | cons dep rest ihl =>
      intro n hn
      rw [resetLoop_cons] at hn
      simp only [List.mem_append] at hn
      rcases hn with (hn | hn) | hn
      · exact ih _ _ n hn
      · by_cases hold : getKey s dep.field = some none
        · simp [hold] at hn
        · rw [if_neg (by simpa using hold)] at hn
          rcases List.mem_singleton.mp hn with rfl
          rfl
      · exact ihl _ n hn

/-- The derived view carried by a cascade notification already shows the
notified field as unset. -/
theorem reset_notif_null (c : Config) (fuel : Nat) :
    ∀ (s : FilterMap) (cf : String),
      ∀ n ∈ (resetDependentFields c fuel s cf).2,
        getKey n.state.currentSelections n.field = some none := by
  induction fuel with
  | zero => intro s cf n hn; simp [resetDependentFields_zero] at hn
  | succ fuel ih =>
    intro s cf
    rw [resetDependentFields_succ]
    generalize c.dependencies.filter (fun d => d.dependsOn.contains cf) = depList
    induction depList generalizing s with
    | nil => intro n hn; simp [resetLoop_nil] at hn
    | cons dep rest ihl =>
      intro n hn
      rw [resetLoop_cons] at hn
      simp only [List.mem_append] at hn
      rcases hn with (hn | hn) | hn
      · exact ih _ _ n hn
      · by_cases hold : getKey s dep.field = some none
        · simp [hold] at hn
        · rw [if_neg (by simpa using hold)] at hn
          rcases List.mem_singleton.mp hn with rfl
          show getKey ((resetDependentFields c fuel (setKey s dep.field none) dep.field).1)
            dep.field = some none
          exact reset_null_mono c fuel _ _ _ (getKey_setKey_self _ _ _)
      · exact ihl _ n hn

/-- Every cascade notification targets a transitive dependent of the
changed field whose selection was set (not `null`) when the cascade
started. -/
theorem reset_notif_dep (c : Config) (fuel : Nat) :
    ∀ (s : FilterMap) (cf : String),
      ∀ n ∈ (resetDependentFields c fuel s cf).2,
        DependsOnTrans c.dependencies cf n.field ∧ getKey s n.field ≠ some none := by
  induction fuel with
  | zero => intro s cf n hn; simp [resetDependentFields_zero] at hn
  | succ fuel ih =>
    intro s cf
    rw [resetDependentFields_succ]
    have hdl : ∀ dep ∈ c.dependencies.filter (fun d => d.dependsOn.contains cf),
        stepsTo c.dependencies cf dep.field := by
      intro dep hdep
      rw [List.mem_filter] at hdep
      exact ⟨dep, hdep.1, rfl, by simpa using hdep.2⟩
    generalize c.dependencies.filter (fun d => d.dependsOn.contains cf) = depList at hdl
    induction depList generalizing s with
    | nil => intro n hn; simp [resetLoop_nil] at hn
    | cons dep rest ihl =>
      intro n hn
      have hstep : stepsTo c.dependencies cf dep.field :=
        hdl dep (List.mem_cons_self _ _)
      rw [resetLoop_cons] at hn
      simp only [List.mem_append] at hn
      rcases hn with (hn | hn) | hn
      · rcases ih _ _ n hn with ⟨htg, hne⟩
        have hfne : n.field ≠ dep.field := by
          intro he
          exact hne (he ▸ getKey_setKey_self _ _ _)
        refine ⟨Relation.TransGen.head hstep htg, ?_⟩
        rw [getKey_setKey_ne _ _ _ _ hfne] at hne
        exact hne
      · by_cases hold : getKey s dep.field = some none
        · simp [hold] at hn
        · rw [if_neg (by simpa using hold)] at hn
          rcases List.mem_singleton.mp hn with rfl
          exact ⟨Relation.TransGen.single hstep, hold⟩
      · rcases ihl _ (fun d hd => hdl d (List.mem_cons_of_mem _ hd)) n hn with ⟨htg, hne⟩
        rcases resetStep_pres c fuel s dep n.field hne with ⟨_, hpres⟩
        rw [hpres] at hne
        exact ⟨htg, hne⟩

/-! ## Dependency chains and acyclicity -/

theorem chain_reaches {deps : List DependencyConfig} :
    ∀ (a : String) (l : List String),
      List.Chain (stepsTo deps) a l → ∀ x ∈ l, DependsOnTrans deps a x := by
  intro a l
  induction l generalizing a with
  | nil => intro _ x hx; simp at hx
  | cons b l ih =>
    intro hch x hx
    rw [List.chain_cons] at hch
    rcases List.mem_cons.mp hx with rfl | hx
    · exact Relation.TransGen.single hch.1
    · exact Relation.TransGen.head hch.1 (ih b hch.2 x hx)

theorem chain_declared {deps : List DependencyConfig} :
    ∀ (a : String) (l : List String),
      List.Chain (stepsTo deps) a l → ∀ x ∈ l, x ∈ deps.map (fun d => d.field) := by
  intro a l
  induction l generalizing a with
  | nil => intro _ x hx; simp at hx
  | cons b l ih =>
    intro hch x hx
    rw [List.chain_cons] at hch
    rcases List.mem_cons.mp hx with rfl | hx
    · rcases hch.1 with ⟨dep, hdep, hf, _⟩
      exact List.mem_map.mpr ⟨dep, hdep, hf⟩
    · exact ih b hch.2 x hx

/-- Under acyclicity every dependency chain is simple: it never repeats
a field and never returns to its start. -/
theorem chains_simple {deps : List DependencyConfig} (hacyc : AcyclicDeps deps) :
    ∀ (l : List String) (a : String),
      List.Chain (stepsTo deps) a l → l.Nodup ∧ a ∉ l := by
  intro l
  induction l with
  | nil => intro a _; exact ⟨List.nodup_nil, by simp⟩
  | cons b l ih =>
    intro a hch
    rw [List.chain_cons] at hch
    rcases ih b hch.2 with ⟨hnd, hbl⟩
    refine ⟨List.nodup_cons.mpr ⟨hbl, hnd⟩, ?_⟩
    intro hal
    rcases List.mem_cons.mp hal with rfl | hal
    · exact hacyc a (Relation.TransGen.single hch.1)
    · exact hacyc a
        (Relation.TransGen.head hch.1 (chain_reaches b l hch.2 a hal))

/-- Under acyclicity every dependency chain has at most one entry per
declaration. -/
theorem chain_length_le {deps : List DependencyConfig} (hacyc : AcyclicDeps deps) :
    ∀ (a : String) (l : List String),
      List.Chain (stepsTo deps) a l → l.length ≤ deps.length := by
  intro a l hch
  rcases chains_simple hacyc l a hch with ⟨hnd, _⟩
  have hsub : ∀ x ∈ l, x ∈ deps.map (fun d => d.field) := chain_declared a l hch
  calc l.length = l.toFinset.card := (List.toFinset_card_of_nodup hnd).symm
    _ ≤ (deps.map (fun d => d.field)).toFinset.card := by
        apply Finset.card_le_card
        intro x hx
        rw [List.mem_toFinset] at hx ⊢
        exact hsub x hx
    _ ≤ (deps.map (fun d => d.field)).length := List.toFinset_card_le _
    _ = deps.length := List.length_map _ _

/-- A transitive dependency yields a first step and a remainder. -/
theorem transGen_first_step {deps : List DependencyConfig} {a d : String}
    (h : DependsOnTrans deps a d) :
    ∃ b, stepsTo deps a b ∧ (d = b ∨ DependsOnTrans deps b d) := by
  rcases (Relation.TransGen.head'_iff).mp h with ⟨b, hab, hbd⟩
  rcases (Relation.reflTransGen_iff_eq_or_transGen).mp hbd with heq | htg
  · exact ⟨b, hab, Or.inl heq⟩
  · exact ⟨b, hab, Or.inr htg⟩

/-- Completeness of the cascade: with fuel dominating every chain
length, the cascade from `cf` sets every transitive dependent of `cf` to
`null`. -/
theorem reset_null_complete (c : Config) (fuel : Nat) :
    ∀ (s : FilterMap) (cf : String),
      (∀ l, List.Chain (stepsTo c.dependencies) cf l → l.length ≤ fuel) →
      ∀ d, DependsOnTrans c.dependencies cf d →
        getKey ((resetDependentFields c fuel s cf).1) d = some none := by
  induction fuel with
  | zero =>
    intro s cf hch d htg
    obtain ⟨b, hstep, _⟩ := transGen_first_step htg
    have h1 : List.Chain (stepsTo c.dependencies) cf [b] :=
      List.chain_cons.mpr ⟨hstep, List.Chain.nil⟩
    have := hch [b] h1
    simp at this
  | succ fuel ih =>
    intro s cf hch d htg
    rw [resetDependentFields_succ]
    obtain ⟨b, hstep, hrest⟩ := transGen_first_step htg
    have hchb : ∀ l, List.Chain (stepsTo c.dependencies) b l → l.length ≤ fuel := by
      intro l hl
      have h1 : List.Chain (stepsTo c.dependencies) cf (b :: l) :=
        List.chain_cons.mpr ⟨hstep, hl⟩
      have := hch (b :: l) h1
      simpa using this
    obtain ⟨dep0, hdep0, hf0, hcf0⟩ := hstep
    have hmem0 : dep0 ∈ c.dependencies.filter (fun dd => dd.dependsOn.contains cf) := by
      rw [List.mem_filter]
      exact ⟨hdep0, by simpa using hcf0⟩
    have hin : ∀ dep ∈ c.dependencies.filter (fun dd => dd.dependsOn.contains cf),
        stepsTo c.dependencies cf dep.field := by
      intro dep hdep
      rw [List.mem_filter] at hdep
      exact ⟨dep, hdep.1, rfl, by simpa using hdep.2⟩
    have hmemb : ∃ dep ∈ c.dependencies.filter (fun dd => dd.dependsOn.contains cf),
        dep.field = b := ⟨dep0, hmem0, hf0⟩
    generalize c.dependencies.filter (fun dd => dd.dependsOn.contains cf) = depList
      at hin hmemb
    clear hmem0 hdep0 hf0 hcf0 htg
    induction depList generalizing s with
    | nil => simp at hmemb
    | cons dep rest ihl =>
      rw [resetLoop_cons]
      by_cases hfb : dep.field = b
      · rcases hrest with heq | htgb
        · subst heq
          apply resetLoop_null_mono
          apply reset_null_mono
          rw [hfb]
          exact getKey_setKey_self _ _ _
        · apply resetLoop_null_mono
          rw [hfb]
          exact ih (setKey s b none) b hchb d htgb
      · rcases hmemb with ⟨dep', hdep', hb'⟩
        rcases List.mem_cons.mp hdep' with rfl | hdep'
        · exact absurd hb' hfb
        · exact ihl _ (fun dd hdd => hin dd (List.mem_cons_of_mem _ hdd))
            ⟨dep', hdep', hb'⟩

theorem resetLoop_cons_fst (c : Config)
    (r : FilterMap → String → FilterMap × List Notification)
    (s : FilterMap) (dep : DependencyConfig) (rest : List DependencyConfig) :
    (resetLoop c r s (dep :: rest)).1 =
      (resetLoop c r ((r (setKey s dep.field none) dep.field).1) rest).1 := rfl

theorem resetLoop_cons_snd (c : Config)
    (r : FilterMap → String → FilterMap × List Notification)
    (s : FilterMap) (dep : DependencyConfig) (rest : List DependencyConfig) :
    (resetLoop c r s (dep :: rest)).2 =
      (r (setKey s dep.field none) dep.field).2 ++
        (if getKey s dep.field == some none then []
         else [⟨dep.field, none,
                getCurrentState c ((r (setKey s dep.field none) dep.field).1)⟩]) ++
        (resetLoop c r ((r (setKey s dep.field none) dep.field).1) rest).2 := rfl

/-- If the cascade changes the value of a formerly-set key, it emits a
notification for that key. -/
theorem reset_changed_notified (c : Config) (fuel : Nat) :
    ∀ (s : FilterMap) (cf g : String),
      getKey ((resetDependentFields c fuel s cf).1) g ≠ getKey s g →
      getKey s g ≠ some none →
      ∃ n ∈ (resetDependentFields c fuel s cf).2, n.field = g := by
  induction fuel with
  | zero =>
    intro s cf g hchg _
    exact absurd rfl hchg
  | succ fuel ih =>
    intro s cf g
    rw [resetDependentFields_succ]
    generalize c.dependencies.filter (fun dd => dd.dependsOn.contains cf) = depList
    induction depList generalizing s with
    | nil =>
      intro hchg _
      exact absurd rfl hchg
    | cons dep rest ihl =>
      intro hchg hset
      rw [resetLoop_cons_fst] at hchg
      rw [resetLoop_cons_snd]
      by_cases hgd : g = dep.field
      · refine ⟨⟨dep.field, none, getCurrentState c
          ((resetDependentFields c fuel (setKey s dep.field none) dep.field).1)⟩,
          ?_, hgd.symm⟩
        rw [hgd] at hset
        rw [if_neg (by simpa using hset)]
        simp
      · have h1 : getKey (setKey s dep.field none) g = getKey s g :=
          getKey_setKey_ne _ _ _ _ hgd
        by_cases h2 : getKey ((resetDependentFields c fuel (setKey s dep.field none)
            dep.field).1) g = getKey s g
        · have h3 : getKey ((resetLoop c (resetDependentFields c fuel)
              ((resetDependentFields c fuel (setKey s dep.field none) dep.field).1)
              rest).1) g ≠ getKey ((resetDependentFields c fuel
                (setKey s dep.field none) dep.field).1) g := by
            rw [h2]
            exact hchg
          have h4 : getKey ((resetDependentFields c fuel (setKey s dep.field none)
              dep.field).1) g ≠ some none := by
            rw [h2]
            exact hset
          rcases ihl _ h3 h4 with ⟨n, hn, hnf⟩
          refine ⟨n, ?_, hnf⟩
          simp only [List.mem_append]
          exact Or.inr hn
        · have h5 : getKey ((resetDependentFields c fuel (setKey s dep.field none)
              dep.field).1) g ≠ getKey (setKey s dep.field none) g := by
            rw [h1]
            exact h2
          have h6 : getKey (setKey s dep.field none) g ≠ some none := by
            rw [h1]
            exact hset
          rcases ih (setKey s dep.field none) dep.field g h5 h6 with ⟨n, hn, hnf⟩
          refine ⟨n, ?_, hnf⟩
          simp only [List.mem_append]
          exact Or.inl (Or.inl hn)

/-- Completeness of the notifications: with fuel dominating every chain
length, every formerly-set transitive dependent of the changed field
receives a reset notification. -/
theorem reset_notif_complete (c : Config) (fuel : Nat) :
    ∀ (s : FilterMap) (cf : String),
      (∀ l, List.Chain (stepsTo c.dependencies) cf l → l.length ≤ fuel) →
      ∀ g, DependsOnTrans c.dependencies cf g →
        getKey s g ≠ some none →
        ∃ n ∈ (resetDependentFields c fuel s cf).2, n.field = g := by
  induction fuel with
  | zero =>
    intro s cf hch g htg _
    obtain ⟨b, hstep, _⟩ := transGen_first_step htg
    have h1 : List.Chain (stepsTo c.dependencies) cf [b] :=
      List.chain_cons.mpr ⟨hstep, List.Chain.nil⟩
    have := hch [b] h1
    simp at this
  | succ fuel ih =>
    intro s cf hch g htg hset
    rw [resetDependentFields_succ]
    obtain ⟨b, hstep, hrest⟩ := transGen_first_step htg
    have hchb : ∀ l, List.Chain (stepsTo c.dependencies) b l → l.length ≤ fuel := by
      intro l hl
      have h1 : List.Chain (stepsTo c.dependencies) cf (b :: l) :=
        List.chain_cons.mpr ⟨hstep, hl⟩
      simpa using hch (b :: l) h1
    obtain ⟨dep0, hdep0, hf0, hcf0⟩ := hstep
    have hmemb : ∃ dep ∈ c.dependencies.filter (fun dd => dd.dependsOn.contains cf),
        dep.field = b := by
      refine ⟨dep0, ?_, hf0⟩
      rw [List.mem_filter]
      exact ⟨hdep0, by simpa using hcf0⟩
    generalize c.dependencies.filter (fun dd => dd.dependsOn.contains cf) = depList
      at hmemb
    clear hdep0 hf0 hcf0 htg
    induction depList generalizing s with
    | nil => simp at hmemb
    | cons dep rest ihl =>
      rw [resetLoop_cons_snd]
      by_cases hgd : g = dep.field
      · refine ⟨⟨dep.field, none, getCurrentState c
          ((resetDependentFields c fuel (setKey s dep.field none) dep.field).1)⟩,
          ?_, hgd.symm⟩
        rw [hgd] at hset
        rw [if_neg (by simpa using hset)]
        simp
      · have h1 : getKey (setKey s dep.field none) g = getKey s g :=
          getKey_setKey_ne _ _ _ _ hgd
        by_cases hfb : dep.field = b
        · rcases hrest with heq | htgb
          · exact absurd (heq.trans hfb.symm) hgd
          · have h6 : getKey (setKey s dep.field none) g ≠ some none := by
              rw [h1]
              exact hset
            rcases ih (setKey s dep.field none) dep.field
              (by rw [hfb]; exact hchb) g (by rw [hfb]; exact htgb) h6 with ⟨n, hn, hnf⟩
            refine ⟨n, ?_, hnf⟩
            simp only [List.mem_append]
            exact Or.inl (Or.inl hn)
        · rcases hmemb with ⟨dep', hdep', hb'⟩
          rcases List.mem_cons.mp hdep' with rfl | hdep'
          · exact absurd hb' hfb
          · by_cases h2 : getKey ((resetDependentFields c fuel (setKey s dep.field none)
                dep.field).1) g = getKey s g
            · rcases ihl _ (by rw [h2]; exact hset) ⟨dep', hdep', hb'⟩ with ⟨n, hn, hnf⟩
              refine ⟨n, ?_, hnf⟩
              simp only [List.mem_append]
              exact Or.inr hn
            · have h5 : getKey ((resetDependentFields c fuel (setKey s dep.field none)
                  dep.field).1) g ≠ getKey (setKey s dep.field none) g := by
                rw [h1]
                exact h2
              have h6 : getKey (setKey s dep.field none) g ≠ some none := by
                rw [h1]
                exact hset
              rcases reset_changed_notified c fuel (setKey s dep.field none) dep.field g
                h5 h6 with ⟨n, hn, hnf⟩
              refine ⟨n, ?_, hnf⟩
              simp only [List.mem_append]
              exact Or.inl (Or.inl hn)

/-- Every notification of the loop targets a field that was set when the
loop started. -/
theorem resetLoop_notif_set (c : Config) (fuel : Nat) :
    ∀ (depList : List DependencyConfig) (s : FilterMap),
      ∀ n ∈ (resetLoop c (resetDependentFields c fuel) s depList).2,
        getKey s n.field ≠ some none := by
  intro depList
  induction depList with
  | nil =>
    intro s n hn
    simp [resetLoop_nil] at hn
  | cons dep rest ihl =>
    intro s n hn
    rw [resetLoop_cons_snd] at hn
    simp only [List.mem_append] at hn
    rcases hn with (hn | hn) | hn
    · rcases reset_notif_dep c fuel _ _ n hn with ⟨_, hne⟩
      have hfne : n.field ≠ dep.field := fun he => hne (he ▸ getKey_setKey_self _ _ _)
      rw [getKey_setKey_ne _ _ _ _ hfne] at hne
      exact hne
    · by_cases hold : getKey s dep.field = some none
      · simp [hold] at hn
      · rw [if_neg (by simpa using hold)] at hn
        rcases List.mem_singleton.mp hn with rfl
        exact hold
    · have hrest := ihl _ n hn
      intro hc
      apply hrest
      apply reset_null_mono
      by_cases hf : n.field = dep.field
      · rw [hf]
        exact getKey_setKey_self _ _ _
      · rw [getKey_setKey_ne _ _ _ _ hf]
        exact hc

/-- Post-order of the cascade notifications: no notification is ever
followed by a notification for one of its own transitive dependents. -/
theorem reset_notif_pairwise (c : Config) (hacyc : AcyclicDeps c.dependencies)
    (fuel : Nat) :
    ∀ (s : FilterMap) (cf : String),
      (∀ l, List.Chain (stepsTo c.dependencies) cf l → l.length ≤ fuel) →
      List.Pairwise (fun n m => ¬ DependsOnTrans c.dependencies n.field m.field)
        (resetDependentFields c fuel s cf).2 := by
  induction fuel with
  | zero =>
    intro s cf _
    exact List.Pairwise.nil
  | succ fuel ih =>
    intro s cf hch
    rw [resetDependentFields_succ]
    have hin : ∀ dep ∈ c.dependencies.filter (fun dd => dd.dependsOn.contains cf),
        stepsTo c.dependencies cf dep.field := by
      intro dep hdep
      rw [List.mem_filter] at hdep
      exact ⟨dep, hdep.1, rfl, by simpa using hdep.2⟩
    generalize c.dependencies.filter (fun dd => dd.dependsOn.contains cf) = depList
      at hin
    induction depList generalizing s with
    | nil => exact List.Pairwise.nil
    | cons dep rest ihl =>
      have hstep : stepsTo c.dependencies cf dep.field :=
        hin dep (List.mem_cons_self _ _)
      have hbound : ∀ l, List.Chain (stepsTo c.dependencies) dep.field l →
          l.length ≤ fuel := by
        intro l hl
        have h1 : List.Chain (stepsTo c.dependencies) cf (dep.field :: l) :=
          List.chain_cons.mpr ⟨hstep, hl⟩
        simpa using hch (dep.field :: l) h1
      rw [resetLoop_cons_snd, List.append_assoc, List.pairwise_append]
      refine ⟨ih _ _ hbound, ?_, ?_⟩
      · rw [List.pairwise_append]
        refine ⟨?_, ihl _ (fun dd hdd => hin dd (List.mem_cons_of_mem _ hdd)), ?_⟩
        · by_cases hold : getKey s dep.field = some none
          · simp [hold]
          · rw [if_neg (by simpa using hold)]
            exact List.pairwise_singleton _ _
        · intro m hm n hn
          by_cases hold : getKey s dep.field = some none
          · simp [hold] at hm
          · rw [if_neg (by simpa using hold)] at hm
            rcases List.mem_singleton.mp hm with rfl
            intro htg
            have hms := resetLoop_notif_set c fuel rest _ n hn
            apply hms
            exact reset_null_complete c fuel _ _ hbound _ htg
      · intro n hn m hm
        rcases reset_notif_dep c fuel _ _ n hn with ⟨htgn, _⟩
        simp only [List.mem_append] at hm
        rcases hm with hm | hm
        · by_cases hold : getKey s dep.field = some none
          · simp [hold] at hm
          · rw [if_neg (by simpa using hold)] at hm
            rcases List.mem_singleton.mp hm with rfl
            intro htg
            exact hacyc dep.field (Relation.TransGen.trans htgn htg)
        · intro htg
          have hms := resetLoop_notif_set c fuel rest _ m hm
          apply hms
          apply reset_null_complete c fuel _ _ hbound
          exact Relation.TransGen.trans htgn htg

/-! ## Stability of the insertion sort -/

theorem filter_orderedInsert {α : Type} (r : α → α → Prop) [DecidableRel r]
    (p : α → Bool) (x : α) (l : List α)
    (hx : p x = true → ∀ y, ¬ r x y → p y = false) :
    (l.orderedInsert r x).filter p =
      if p x then x :: l.filter p else l.filter p := by
  induction l with
  | nil =>
    rw [List.orderedInsert_nil]
    cases hp : p x <;> simp [List.filter, hp]
  | cons y ys ih =>
    rw [List.orderedInsert]
    by_cases hr : r x y
    · rw [if_pos hr]
      cases hp : p x
      · simp [List.filter, hp]
      · simp [List.filter, hp]
    · rw [if_neg hr]
      cases hp : p x
      · rw [List.filter_cons, List.filter_cons, ih]
        simp [hp]
      · have hy : p y = false := hx hp y hr
        rw [List.filter_cons, List.filter_cons, ih]
        simp [hp, hy]

theorem filter_insertionSort {α : Type} (r : α → α → Prop) [DecidableRel r]
    (p : α → Bool) (l : List α)
    (hcomp : ∀ x y, p x = true → ¬ r x y → p y = false) :
    (l.insertionSort r).filter p = l.filter p := by
  induction l with
  | nil => rfl
  | cons a l ih =>
    rw [List.insertionSort, filter_orderedInsert r p a _ (fun hp y hr => hcomp a y hp hr)]
    cases hp : p a
    · rw [ih, List.filter_cons]
      simp [hp]
    · rw [ih, List.filter_cons]
      simp [hp]

/-! ## Acyclicity helpers -/

theorem transGen_rank {R : String → String → Prop} (rank : String → Nat)
    (hr : ∀ u v, R u v → rank u < rank v) :
    ∀ u v, Relation.TransGen R u v → rank u < rank v := by
  intro u v h
  induction h with
  | single h1 => exact hr _ _ h1
  | tail _ h2 ih => exact lt_trans ih (hr _ _ h2)

/-- A rank function increasing along every declared dependency edge
witnesses acyclicity. -/
theorem acyclic_of_rank {deps : List DependencyConfig} (rank : String → Nat)
    (hr : ∀ u v, stepsTo deps u v → rank u < rank v) : AcyclicDeps deps :=
  fun f htg => lt_irrefl _ (transGen_rank rank hr f f htg)

/-- Under acyclicity, `dependencies.length + 1` fuel dominates every
chain length (the fuel `select` supplies). -/
theorem acyclic_chain_bound (c : Config) (hacyc : AcyclicDeps c.dependencies)
    (cf : String) :
    ∀ l, List.Chain (stepsTo c.dependencies) cf l →
      l.length ≤ c.dependencies.length + 1 :=
  fun l hl => le_trans (chain_length_le hacyc cf l hl) (Nat.le_succ _)

/-! ## `select` equations -/

theorem select_fst (c : Config) (s : FilterMap) (f : String) (v : FieldValue) :
    (select c s f v).1 =
      (resetDependentFields c (c.dependencies.length + 1) (setKey s f v) f).1 := rfl

theorem select_snd (c : Config) (s : FilterMap) (f : String) (v : FieldValue) :
    (select c s f v).2 =
      (resetDependentFields c (c.dependencies.length + 1) (setKey s f v) f).2 ++
        [⟨f, v, getCurrentState c
          ((resetDependentFields c (c.dependencies.length + 1) (setKey s f v) f).1)⟩] := rfl

/-! ## Fixture facts -/

theorem prodConfig_dependencies_eq :
    prodConfig.dependencies = productDependencies := by decide

theorem prod_steps_rank :
    ∀ u v, stepsTo prodConfig.dependencies u v → prodRank u < prodRank v := by
  intro u v hstep
  rcases hstep with ⟨dep, hdep, hf, hu⟩
  rw [prodConfig_dependencies_eq] at hdep
  subst hf
  simp only [productDependencies, List.mem_cons, List.not_mem_nil, or_false] at hdep
  rcases hdep with rfl | rfl | rfl | rfl <;> simp_all <;>
    rcases hu with rfl | rfl | rfl <;> decide

theorem prodAcyclic : AcyclicDeps prodConfig.dependencies :=
  acyclic_of_rank prodRank prod_steps_rank

theorem chainConfig_dependencies_eq :
    chainConfig.dependencies =
      [⟨"cat", []⟩, ⟨"sub", ["cat"]⟩, ⟨"nm", ["cat", "sub"]⟩] := by decide

theorem chain_steps_rank :
    ∀ u v, stepsTo chainConfig.dependencies u v → chainRank u < chainRank v := by
  intro u v hstep
  rcases hstep with ⟨dep, hdep, hf, hu⟩
  rw [chainConfig_dependencies_eq] at hdep
  subst hf
  simp only [List.mem_cons, List.not_mem_nil, or_false] at hdep
  rcases hdep with rfl | rfl | rfl <;> simp_all <;>
    rcases hu with rfl | rfl <;> decide

theorem chainAcyclic : AcyclicDeps chainConfig.dependencies :=
  acyclic_of_rank chainRank chain_steps_rank

/-! ## Claim theorems -/

/-- C9: for every list of dependency declarations, `getSelectionSequence`
returns the declared field names sorted by ascending `dependsOn` size,
and the sort is stable: declarations of equal `dependsOn` cardinality
keep their original relative order. -/
theorem C9_selection_sequence_sorted_stable :
    ∀ (data : List DataItem) (deps : List DependencyConfig),
      getSelectionSequence (mkConfig data deps) =
          (sortDependencies deps).map (fun d => d.field) ∧
      List.Perm (getSelectionSequence (mkConfig data deps))
          (deps.map (fun d => d.field)) ∧
      List.Pairwise depLe (sortDependencies deps) ∧
      ∀ n, (sortDependencies deps).filter (fun d => d.dependsOn.length == n) =
        deps.filter (fun d => d.dependsOn.length == n) := by
  intro data deps
  refine ⟨rfl, ?_, ?_, ?_⟩
  · exact (List.perm_insertionSort depLe deps).map _
  · exact List.sorted_insertionSort depLe deps
  · intro n
    apply filter_insertionSort
    intro x y hx hr
    unfold depLe at hr
    have hxn : x.dependsOn.length = n := by simpa using hx
    have : y.dependsOn.length ≠ n := by omega
    simpa using this

/-- C6: `getFilteredData` returns the ordered sub-sequence of the
dataset matching every set selection; a record outside it fails at least
one set selection; and (given the state keys are the declared fields,
as after construction) the constrained fields are exactly the declared
ones. -/
theorem C6_filtered_data (c : Config) (s : FilterMap)
    (hnd : (s.map Prod.fst).Nodup)
    (hkeys : s.map Prod.fst = c.dependencies.map (fun d => d.field)) :
    List.Sublist (getFilteredData c s) c.data ∧
    (∀ item ∈ getFilteredData c s,
      ∀ f v, getKey s f = some (some v) → getItem item f = some v) ∧
    (∀ item ∈ c.data, item ∉ getFilteredData c s →
      ∃ f v, getKey s f = some (some v) ∧ getItem item f ≠ some v) ∧
    (∀ f, isKey s f = true ↔ f ∈ c.dependencies.map (fun d => d.field)) := by
  refine ⟨List.filter_sublist _, ?_, ?_, ?_⟩
  · intro item hitem f v hf
    rw [getFilteredData, List.mem_filter] at hitem
    have hall := List.all_eq_true.mp hitem.2
    have hmem : (f, some v) ∈ s := mem_of_getKey_some s f (some v) hf
    have := hall _ hmem
    simpa using this
  · intro item hitem hnot
    rw [getFilteredData, List.mem_filter] at hnot
    have h1 : ¬ (s.all (fun p =>
        match p.2 with
        | none => true
        | some v => getItem item p.1 == some v) = true) := by
      intro hc
      exact hnot ⟨hitem, hc⟩
    rw [List.all_eq_true] at h1
    push_neg at h1
    rcases h1 with ⟨p, hp, hnp⟩
    rcases p with ⟨f, val⟩
    cases val with
    | none => simp at hnp
    | some v =>
      refine ⟨f, v, getKey_of_mem_of_nodupKeys s f (some v) hnd hp, ?_⟩
      simpa using hnp
  · intro f
    rw [isKey_iff_mem_keys, hkeys]

/-- One listener's outcome under the `try`/`catch` of
`notifyListeners`. -/
theorem notifyListeners_append (a b : List Listener) (n : Notification) :
    notifyListeners (a ++ b) n = notifyListeners a n ++ notifyListeners b n := by
  induction a with
  | nil => rfl
  | cons l rest ih =>
    rw [List.cons_append, notifyListeners, notifyListeners, ih, List.cons_append]

theorem notifyListeners_length (ls : List Listener) (n : Notification) :
    (notifyListeners ls n).length = ls.length := by
  induction ls with
  | nil => rfl
  | cons l rest ih =>
    rw [notifyListeners, List.length_cons, List.length_cons, ih]

/-- C8: a throwing observer is isolated: the engine state after `select`
is the same as without any listeners, every listener before and after
the failing one is still invoked (its outcome is recorded), the failure
is logged in place, and each notification is delivered to all
registered listeners. -/
theorem C8_observer_isolation (c : Config) (s : FilterMap)
    (ls1 ls2 : List Listener) (lbad : Listener) (msg : String)
    (field : String) (value : FieldValue)
    (hbad : ∀ n, lbad n = Except.error msg) :
    (selectWithListeners c s (ls1 ++ lbad :: ls2) field value).1 =
        (select c s field value).1 ∧
    (selectWithListeners c s (ls1 ++ lbad :: ls2) field value).2 =
      (select c s field value).2.map
        (fun n => notifyListeners ls1 n ++ some msg :: notifyListeners ls2 n) ∧
    ∀ logs ∈ (selectWithListeners c s (ls1 ++ lbad :: ls2) field value).2,
      logs.length = ls1.length + 1 + ls2.length := by
  refine ⟨rfl, ?_, ?_⟩
  · show (select c s field value).2.map (fun n => notifyListeners (ls1 ++ lbad :: ls2) n) = _
    apply List.map_congr_left
    intro n _
    rw [notifyListeners_append, notifyListeners, hbad n]
  · intro logs hlogs
    show logs.length = _
    rcases List.mem_map.mp hlogs with ⟨n, _, rfl⟩
    rw [notifyListeners_append, List.length_append, notifyListeners_length,
      notifyListeners, hbad n, List.length_cons, notifyListeners_length]
    omega

theorem getOptions_eq_of_find (c : Config) (s : FilterMap) (F : String)
    (dep : DependencyConfig)
    (hdep : c.dependencies.find? (fun d => d.field == F) = some dep) :
    getOptions c s F =
      ((dedupFirst ((applyParentFilters s dep.dependsOn c.data).map
        (fun item => getItem item F))).filterMap id).insertionSort valLe := by
  unfold getOptions
  rw [hdep]

theorem parentFilter_pred_iff (s : FilterMap) (item : DataItem) (p : String) :
    ((match getKey s p with
      | some (some pv) => getItem item p == some pv
      | _ => true) = true) ↔
    (∀ pv, getKey s p = some (some pv) → getItem item p = some pv) := by
  cases hk : getKey s p with
  | none => simp
  | some val =>
    cases val with
    | none => simp
    | some pv =>
      constructor
      · intro h pv2 hpv2
        have he : pv = pv2 := by simpa using hpv2
        subst he
        simpa using h
      · intro h
        have := h pv rfl
        simpa using this

/-- Totality of the comparison used by the JS default sort. -/
theorem charListLe_total : ∀ (x y : List Char),
    charListLe x y = true ∨ charListLe y x = true := by
  intro x
  induction x with
  | nil => intro y; exact Or.inl rfl
  | cons a as ih =>
    intro y
    cases y with
    | nil => exact Or.inr rfl
    | cons b bs =>
      rw [charListLe, charListLe]
      rcases Nat.lt_trichotomy a.toNat b.toNat with h | h | h
      · left
        rw [if_pos h]
      · rw [if_neg (by omega), if_neg (by omega), if_neg (by omega), if_neg (by omega)]
        exact ih bs
      · right
        rw [if_pos h]

/-- Transitivity of the comparison used by the JS default sort. -/
theorem charListLe_trans : ∀ (x y z : List Char),
    charListLe x y = true → charListLe y z = true → charListLe x z = true := by
  intro x
  induction x with
  | nil => intro y z _ _; rfl
  | cons a as ih =>
    intro y z hxy hyz
    cases y with
    | nil => rw [charListLe] at hxy; exact absurd hxy (by simp)
    | cons b bs =>
      cases z with
      | nil => rw [charListLe] at hyz; exact absurd hyz (by simp)
      | cons c cs =>
        rw [charListLe] at hxy hyz ⊢
        by_cases hab : a.toNat < b.toNat
        · by_cases hbc : b.toNat < c.toNat
          · rw [if_pos (by omega)]
          · rw [if_neg hbc] at hyz
            by_cases hcb : c.toNat < b.toNat
            · rw [if_pos hcb] at hyz
              exact absurd hyz (by simp)
            · rw [if_pos (by omega)]
        · rw [if_neg hab] at hxy
          by_cases hba : b.toNat < a.toNat
          · rw [if_pos hba] at hxy
            exact absurd hxy (by simp)
          · rw [if_neg hba] at hxy
            by_cases hbc : b.toNat < c.toNat
            · rw [if_pos (by omega)]
            · rw [if_neg hbc] at hyz
              by_cases hcb : c.toNat < b.toNat
              · rw [if_pos hcb] at hyz
                exact absurd hyz (by simp)
              · rw [if_neg hcb] at hyz
                rw [if_neg (by omega), if_neg (by omega)]
                exact ih bs cs hxy hyz

/-- `orderedInsert` preserves pairwise sortedness for a total transitive
relation. -/
theorem pairwise_orderedInsert {α : Type} (r : α → α → Prop) [DecidableRel r]
    (htot : ∀ a b, r a b ∨ r b a)
    (htrans : ∀ a b c, r a b → r b c → r a c)
    (x : α) (l : List α) (hl : List.Pairwise r l) :
    List.Pairwise r (l.orderedInsert r x) := by
  induction l with
  | nil => simp [List.orderedInsert_nil]
  | cons y ys ih =>
    rw [List.orderedInsert]
    by_cases hr : r x y
    · rw [if_pos hr]
      apply List.Pairwise.cons
      · intro z hz
        rcases List.mem_cons.mp hz with rfl | hz
        · exact hr
        · exact htrans x y z hr ((List.pairwise_cons.mp hl).1 z hz)
      · exact hl
    · rw [if_neg hr]
      rcases List.pairwise_cons.mp hl with ⟨hy, hys⟩
      apply List.Pairwise.cons
      · intro z hz
        rcases (List.mem_orderedInsert r).mp hz with rfl | hz
        · rcases htot z y with h | h
          · exact absurd h hr
          · exact h
        · exact hy z hz
      · exact ih hys

/-- `insertionSort` sorts, for a total transitive relation. -/
theorem pairwise_insertionSort {α : Type} (r : α → α → Prop) [DecidableRel r]
    (htot : ∀ a b, r a b ∨ r b a)
    (htrans : ∀ a b c, r a b → r b c → r a c) :
    ∀ l : List α, List.Pairwise r (l.insertionSort r) := by
  intro l
  induction l with
  | nil => exact List.Pairwise.nil
  | cons a l ih =>
    rw [List.insertionSort]
    exact pairwise_orderedInsert r htot htrans a _ ih

theorem valLe_total (a b : Value) : valLe a b ∨ valLe b a :=
  charListLe_total _ _

theorem valLe_trans (a b c : Value) : valLe a b → valLe b c → valLe a c :=
  charListLe_trans _ _ _

/-- C2 (amended): for a declared field, `getOptions` returns exactly the
distinct non-null values of the field across the dataset narrowed by the
currently-set prerequisite selections, deduplicated, and sorted by the
string representation of the values (the JS default sort order) — which
is lexicographic for strings but not numeric for numbers. -/
theorem C2_options_characterization (c : Config) (s : FilterMap) (F : String)
    (dep : DependencyConfig)
    (hdep : c.dependencies.find? (fun d => d.field == F) = some dep) :
    (getOptions c s F).Nodup ∧
    List.Pairwise valLe (getOptions c s F) ∧
    ∀ w, w ∈ getOptions c s F ↔
      ∃ item ∈ c.data,
        (∀ p ∈ dep.dependsOn, ∀ pv, getKey s p = some (some pv) →
          getItem item p = some pv) ∧
        getItem item F = some w := by
  rw [getOptions_eq_of_find c s F dep hdep]
  refine ⟨?_, ?_, ?_⟩
  · exact (List.perm_insertionSort valLe _).nodup_iff.mpr
      (nodup_filterMap_id _ (nodup_dedupFirst _))
  · exact pairwise_insertionSort valLe valLe_total valLe_trans _
  · intro w
    rw [List.mem_insertionSort, mem_filterMap_id, mem_dedupFirst]
    rw [applyParentFilters_eq_filter]
    constructor
    · intro h
      rcases List.mem_map.mp h with ⟨item, hitem, hw⟩
      rw [List.mem_filter] at hitem
      refine ⟨item, hitem.1, ?_, hw⟩
      intro p hp pv hpv
      have := List.all_eq_true.mp hitem.2 p hp
      exact (parentFilter_pred_iff s item p).mp this pv hpv
    · rintro ⟨item, hitem, hmatch, hw⟩
      apply List.mem_map.mpr
      refine ⟨item, ?_, hw⟩
      rw [List.mem_filter]
      refine ⟨hitem, List.all_eq_true.mpr ?_⟩
      intro p hp
      exact (parentFilter_pred_iff s item p).mpr (hmatch p hp)

/-- C2 counterexample: on a numeric field with values `2` and `10` the
engine returns `[10, 2]` (string order), not the numeric order `[2, 10]`
the claim requires. -/
theorem C2_counterexample :
    getOptions numConfig (initializeSelections numConfig) "n" =
        [Value.num 10, Value.num 2] ∧
    ¬ getOptions numConfig (initializeSelections numConfig) "n" =
        [Value.num 2, Value.num 10] := by
  decide

/-- C2 witness: the characterization applied to the declared field
`"category"` of the fixture engine. -/
theorem C2_witness :
    (getOptions prodConfig prodInit "category").Nodup ∧
    List.Pairwise valLe (getOptions prodConfig prodInit "category") ∧
    ∀ w, w ∈ getOptions prodConfig prodInit "category" ↔
      ∃ item ∈ prodConfig.data,
        (∀ p ∈ ([] : List String), ∀ pv, getKey prodInit p = some (some pv) →
          getItem item p = some pv) ∧
        getItem item "category" = some w :=
  C2_options_characterization prodConfig prodInit "category" ⟨"category", []⟩ (by decide)

theorem isKey_foldl_setKey (deps : List DependencyConfig) :
    ∀ (s : FilterMap) (f : String),
      isKey (deps.foldl (fun s dep => setKey s dep.field none) s) f = true ↔
        ((∃ dep ∈ deps, dep.field = f) ∨ isKey s f = true) := by
  induction deps with
  | nil =>
    intro s f
    simp
  | cons dep rest ih =>
    intro s f
    rw [List.foldl_cons, ih, isKey_setKey]
    constructor
    · rintro (⟨d, hd, hdf⟩ | (h | h))
      · exact Or.inl ⟨d, List.mem_cons_of_mem _ hd, hdf⟩
      · exact Or.inl ⟨dep, List.mem_cons_self _ _, h⟩
      · exact Or.inr h
    · rintro (⟨d, hd, hdf⟩ | h)
      · rcases List.mem_cons.mp hd with rfl | hd
        · exact Or.inr (Or.inl hdf)
        · exact Or.inl ⟨d, hd, hdf⟩
      · exact Or.inr (Or.inr h)

/-- C3 (amended): after construction the Selection State has exactly one
entry per declared field, and `select` on a field that has an entry (in
particular any declared field) never adds or removes entries; but
`select` with an undeclared field name does add a new entry (see the
counterexample). -/
theorem C3_state_entries :
    (∀ (data : List DataItem) (deps : List DependencyConfig) (f : String),
      isKey (initializeSelections (mkConfig data deps)) f = true ↔
        f ∈ deps.map (fun d => d.field)) ∧
    (∀ (c : Config) (s : FilterMap) (f : String) (v : FieldValue),
      (∀ dep ∈ c.dependencies, isKey s dep.field = true) →
      isKey s f = true →
      ((select c s f v).1).map Prod.fst = s.map Prod.fst) := by
  constructor
  · intro data deps f
    show isKey ((sortDependencies deps).foldl (fun s dep => setKey s dep.field none) []) f
        = true ↔ _
    rw [isKey_foldl_setKey]
    constructor
    · rintro (⟨d, hd, hdf⟩ | h)
      · exact List.mem_map.mpr ⟨d, (List.perm_insertionSort depLe deps).subset hd, hdf⟩
      · simp [isKey] at h
    · intro hf
      rcases List.mem_map.mp hf with ⟨d, hd, hdf⟩
      exact Or.inl ⟨d, (List.perm_insertionSort depLe deps).mem_iff.mpr hd, hdf⟩
  · intro c s f v hinv hf
    rw [select_fst]
    have h1 : (setKey s f v).map Prod.fst = s.map Prod.fst :=
      keys_setKey_of_isKey s f v hf
    have hinv1 : ∀ dep ∈ c.dependencies, isKey (setKey s f v) dep.field = true := by
      intro dep hdep
      rw [isKey_congr s _ h1]
      exact hinv dep hdep
    rw [reset_keys c _ _ _ hinv1, h1]

/-- C3 witness: on the fixture, a declared-field `select` keeps the key
set, and the constructed state has an entry exactly for each declared
field. -/
theorem C3_witness :
    ((select prodConfig prodInit "category" (some (Value.str "Electronics"))).1).map
        Prod.fst = prodInit.map Prod.fst ∧
    (isKey prodInit "brand" = true ↔
      "brand" ∈ productDependencies.map (fun d => d.field)) := by
  constructor
  · exact C3_state_entries.2 prodConfig prodInit "category"
      (some (Value.str "Electronics")) (by decide) (by decide)
  · exact C3_state_entries.1 sampleData productDependencies "brand"

/-- C3 counterexample: `select` with the undeclared field name `"color"`
adds a fifth entry to the Selection State, so the claimed invariant
(no entry is ever added, even for undeclared names) is false. -/
theorem C3_counterexample :
    ¬ (((select prodConfig prodInit "color" (some (Value.str "Red"))).1).map Prod.fst
        = prodInit.map Prod.fst) := by
  decide

/-- C1 (amended): in the fixture scenario (category = Electronics,
subcategory = Laptops, brand and name unset), `select("category",
"Sports")` resets subcategory, brand and name to unset, and emits
exactly one reset notification — for subcategory, the only descendant
whose prior value was set — before the final notification for
`"category"` with value `"Sports"`. -/
theorem C1_category_switch :
    (select prodConfig prodAfterSubcategory "category" (some (Value.str "Sports"))).2.map
        (fun n => (n.field, n.value)) =
      [("subcategory", (none : FieldValue)),
       ("category", some (Value.str "Sports"))] ∧
    getKey ((select prodConfig prodAfterSubcategory "category"
        (some (Value.str "Sports"))).1) "subcategory" = some none ∧
    getKey ((select prodConfig prodAfterSubcategory "category"
        (some (Value.str "Sports"))).1) "brand" = some none ∧
    getKey ((select prodConfig prodAfterSubcategory "category"
        (some (Value.str "Sports"))).1) "name" = some none := by
  decide

/-- C1 counterexample: in that scenario the engine emits one reset
notification, not the three the claim requires (brand and name were
already unset, so their notifications are suppressed). -/
theorem C1_counterexample :
    ¬ ((select prodConfig prodAfterSubcategory "category"
        (some (Value.str "Sports"))).2.countP (fun n => n.value == none) = 3) := by
  decide

/-- C7: `select(F, v)` over acyclic declarations immediately followed by
reading `getCurrentState().currentSelections[F]` returns `v`. -/
theorem C7_select_roundtrip (c : Config) (s : FilterMap) (F : String) (v : FieldValue)
    (_hdecl : (c.dependencies.find? (fun d => d.field == F)).isSome = true)
    (hacyc : AcyclicDeps c.dependencies) :
    getKey ((getCurrentState c ((select c s F v).1)).currentSelections) F = some v := by
  show getKey ((select c s F v).1) F = some v
  rw [select_fst, reset_getKey_of_not_dep c _ _ _ _ (hacyc F)]
  exact getKey_setKey_self _ _ _

/-- C7 witness: the round trip on the fixture. -/
theorem C7_witness :
    getKey ((getCurrentState prodConfig ((select prodConfig prodInit "category"
        (some (Value.str "Electronics"))).1)).currentSelections) "category" =
      some (some (Value.str "Electronics")) :=
  C7_select_roundtrip prodConfig prodInit "category" (some (Value.str "Electronics"))
    (by decide) prodAcyclic

/-- C5: over acyclic declarations, after `select(X, v)` every field that
transitively depends on `X` has an unset (`null`) selection. -/
theorem C5_cascade_completeness (c : Config) (s : FilterMap) (X : String)
    (v : FieldValue) (hacyc : AcyclicDeps c.dependencies) :
    ∀ d, DependsOnTrans c.dependencies X d →
      getKey ((select c s X v).1) d = some none := by
  intro d htg
  rw [select_fst]
  exact reset_null_complete c _ _ _ (acyclic_chain_bound c hacyc X) d htg

/-- C5 witness: `"name"` transitively depends on `"category"` in the
fixture and is unset after the category switch. -/
theorem C5_witness :
    getKey ((select prodConfig prodAfterSubcategory "category"
        (some (Value.str "Sports"))).1) "name" = some none :=
  C5_cascade_completeness prodConfig prodAfterSubcategory "category"
    (some (Value.str "Sports")) prodAcyclic "name"
    (Relation.TransGen.single
      ⟨⟨"name", ["category", "subcategory", "brand"]⟩, by decide, rfl, by decide⟩)

theorem isSet_false_of_all_none (s : FilterMap) (h : ∀ p ∈ s, p.2 = none)
    (g : String) : isSet s g = false := by
  unfold isSet
  cases hk : getKey s g with
  | none => rfl
  | some val =>
    cases val with
    | none => rfl
    | some v =>
      have hmem := mem_of_getKey_some s g (some v) hk
      have := h _ hmem
      simp at this

/-- C4 (amended): selecting a value for a prerequisite `P` of `F` cannot
increase the option count of `F`, provided every field transitively
depending on `P` was unset at the time of the call (so the cascade of
the `select` does not clear another previously-set prerequisite of `F`;
without that proviso the count can grow, see the counterexample). -/
theorem C4_narrowing_monotone (c : Config) (s : FilterMap) (F P : String)
    (dep : DependencyConfig) (v : Value)
    (_hdep : c.dependencies.find? (fun d => d.field == F) = some dep)
    (_hP : P ∈ dep.dependsOn)
    (_hacyc : AcyclicDeps c.dependencies)
    (hPunset : isSet s P = false)
    (hdeps : ∀ g, DependsOnTrans c.dependencies P g → isSet s g = false) :
    (getOptions c ((select c s P (some v)).1) F).length ≤
      (getOptions c s F).length := by
  apply getOptions_length_mono
  intro p
  by_cases hp1 : DependsOnTrans c.dependencies P p
  · exact Or.inr (hdeps p hp1)
  · by_cases hp2 : p = P
    · subst hp2
      exact Or.inr hPunset
    · left
      rw [select_fst, reset_getKey_of_not_dep c _ _ _ _ hp1,
        getKey_setKey_ne _ _ _ _ hp2]

/-- C4 witness: selecting the prerequisite `"cat"` from the all-unset
state narrows the options of `"nm"`. -/
theorem C4_witness :
    (getOptions chainConfig ((select chainConfig (initializeSelections chainConfig)
        "cat" (some (Value.str "B"))).1) "nm").length ≤
      (getOptions chainConfig (initializeSelections chainConfig) "nm").length :=
  C4_narrowing_monotone chainConfig (initializeSelections chainConfig) "nm" "cat"
    ⟨"nm", ["cat", "sub"]⟩ (Value.str "B") (by decide) (by decide) chainAcyclic
    (by decide)
    (fun g _ => isSet_false_of_all_none _ (by decide) g)

/-- C4 counterexample: with `sub = "X"` selected out of order (1 option
for `nm`), `select("cat", "B")` resets `sub` and widens `nm` to 2
options, so the claimed monotonicity fails as stated. -/
theorem C4_counterexample :
    ¬ ((getOptions chainConfig ((select chainConfig chainAfterSub
        "cat" (some (Value.str "B"))).1) "nm").length ≤
      (getOptions chainConfig chainAfterSub "nm").length) := by
  decide

/-- C10: over acyclic declarations, the notifications of `select(X, v)`
consist of the cascade's reset notifications followed by the final
notification for `X` itself; every reset notification carries value
`null` and a derived view already showing its field as unset; and a
reset notification is emitted only after reset notifications for all of
the formerly-set transitive dependents of its field (post-order). -/
theorem C10_notification_order (c : Config) (s : FilterMap) (X : String)
    (v : FieldValue) (hacyc : AcyclicDeps c.dependencies) :
    ∃ cascade,
      (select c s X v).2 = cascade ++
        [⟨X, v, getCurrentState c ((select c s X v).1)⟩] ∧
      (∀ n ∈ cascade, n.value = none ∧
        getKey n.state.currentSelections n.field = some none) ∧
      (∀ ns1 n ns2, cascade = ns1 ++ n :: ns2 →
        ∀ g, DependsOnTrans c.dependencies n.field g →
          getKey s g ≠ some none →
          ∃ n2 ∈ ns1, n2.field = g) := by
  refine ⟨(resetDependentFields c (c.dependencies.length + 1) (setKey s X v) X).2,
    rfl, ?_, ?_⟩
  · intro n hn
    exact ⟨reset_notif_value c _ _ _ n hn, reset_notif_null c _ _ _ n hn⟩
  · intro ns1 n ns2 hsplit g htg hset
    have hn : n ∈ (resetDependentFields c (c.dependencies.length + 1)
        (setKey s X v) X).2 := by
      rw [hsplit]
      simp
    have hXn : DependsOnTrans c.dependencies X n.field :=
      (reset_notif_dep c _ _ _ n hn).1
    have hgX : g ≠ X := by
      intro he
      subst he
      exact hacyc _ (Relation.TransGen.trans hXn htg)
    have hset1 : getKey (setKey s X v) g ≠ some none := by
      rw [getKey_setKey_ne _ _ _ _ hgX]
      exact hset
    obtain ⟨n2, hn2, hn2f⟩ := reset_notif_complete c _ (setKey s X v) X
      (acyclic_chain_bound c hacyc X) g
      (Relation.TransGen.trans hXn htg) hset1
    rw [hsplit] at hn2
    rcases List.mem_append.mp hn2 with h | h
    · exact ⟨n2, h, hn2f⟩
    · rcases List.mem_cons.mp h with rfl | h
      · rw [hn2f] at htg
        exact absurd htg (hacyc g)
      · have hpw := reset_notif_pairwise c hacyc _ (setKey s X v) X
          (acyclic_chain_bound c hacyc X)
        rw [hsplit] at hpw
        rcases List.pairwise_append.mp hpw with ⟨_, hp2, _⟩
        have hrel := (List.pairwise_cons.mp hp2).1 n2 h
        rw [hn2f] at hrel
        exact absurd htg hrel

/-- C10 witness: the ordering property instantiated on the fixture
category switch. -/
theorem C10_witness :
    ∃ cascade,
      (select prodConfig prodAfterSubcategory "category"
          (some (Value.str "Sports"))).2 = cascade ++
        [⟨"category", some (Value.str "Sports"),
          getCurrentState prodConfig ((select prodConfig prodAfterSubcategory
            "category" (some (Value.str "Sports"))).1)⟩] ∧
      (∀ n ∈ cascade, n.value = none ∧
        getKey n.state.currentSelections n.field = some none) ∧
      (∀ ns1 n ns2, cascade = ns1 ++ n :: ns2 →
        ∀ g, DependsOnTrans prodConfig.dependencies n.field g →
          getKey prodAfterSubcategory g ≠ some none →
          ∃ n2 ∈ ns1, n2.field = g) :=
  C10_notification_order prodConfig prodAfterSubcategory "category"
    (some (Value.str "Sports")) prodAcyclic

/-- C6 witness: the filtered-data characterization on the fixture state
with category and subcategory set. -/
theorem C6_witness :
    List.Sublist (getFilteredData prodConfig prodAfterSubcategory) prodConfig.data ∧
    (∀ item ∈ getFilteredData prodConfig prodAfterSubcategory,
      ∀ f v, getKey prodAfterSubcategory f = some (some v) → getItem item f = some v) ∧
    (∀ item ∈ prodConfig.data, item ∉ getFilteredData prodConfig prodAfterSubcategory →
      ∃ f v, getKey prodAfterSubcategory f = some (some v) ∧ getItem item f ≠ some v) ∧
    (∀ f, isKey prodAfterSubcategory f = true ↔
      f ∈ prodConfig.dependencies.map (fun d => d.field)) :=
  C6_filtered_data prodConfig prodAfterSubcategory (by decide) (by decide)

/-- C8 witness: a listener that always throws, placed between two
healthy listeners, neither corrupts the state nor blocks delivery. -/
theorem C8_witness :
    (selectWithListeners numConfig (initializeSelections numConfig)
        (([fun _ => Except.ok ()] : List Listener) ++
          ((fun _ => Except.error "boom") : Listener) ::
          ([fun _ => Except.ok ()] : List Listener)) "n" (some (Value.num 2))).1 =
      (select numConfig (initializeSelections numConfig) "n" (some (Value.num 2))).1 ∧
    (selectWithListeners numConfig (initializeSelections numConfig)
        (([fun _ => Except.ok ()] : List Listener) ++
          ((fun _ => Except.error "boom") : Listener) ::
          ([fun _ => Except.ok ()] : List Listener)) "n" (some (Value.num 2))).2 =
      (select numConfig (initializeSelections numConfig) "n"
          (some (Value.num 2))).2.map
        (fun n => notifyListeners ([fun _ => Except.ok ()] : List Listener) n ++
          some "boom" :: notifyListeners ([fun _ => Except.ok ()] : List Listener) n) ∧
    ∀ logs ∈ (selectWithListeners numConfig (initializeSelections numConfig)
        (([fun _ => Except.ok ()] : List Listener) ++
          ((fun _ => Except.error "boom") : Listener) ::
          ([fun _ => Except.ok ()] : List Listener)) "n" (some (Value.num 2))).2,
      logs.length = ([fun _ => Except.ok ()] : List Listener).length + 1 +
        ([fun _ => Except.ok ()] : List Listener).length :=
  C8_observer_isolation numConfig (initializeSelections numConfig)
    [fun _ => Except.ok ()] [fun _ => Except.ok ()] (fun _ => Except.error "boom")
    "boom" "n" (some (Value.num 2)) (fun _ => rfl)
